import Mathlib

/-!
Verification of the SO(2) core of the Sophus library (src/sophus/so2.hpp).

The scalar type is embedded as the real numbers.  The SO2 group element
(class SO2Group / SO2GroupBase) stores a complex pair (real, imag); the
operations below are translated from the corresponding member functions.
The assertion conditions of the contract checks (assert(...)) are modelled
as explicit propositions next to the total functions they guard.
-/

noncomputable section

namespace Sophus

/-- Modelled from the spec: the constant SophusConstants Scalar epsilon is
defined in sophus.hpp, which is not part of the sources; the spec describes it
as a scalar-precision-dependent minimum-safe-magnitude threshold.  For the
double-precision instantiation it is modelled as the positive constant
1e-10. -/
def epsilon : ℝ := 1e-10

/-- The stored state of an SO2 group element: the complex pair
unit_complex_ = (real, imag), fields x() and y() of the 2-vector. -/
@[ext]
structure SO2 where
  re : ℝ
  im : ℝ

namespace SO2

/-- Default constructor SO2Group(): unit_complex_(1, 0). -/
def identity : SO2 := ⟨1, 0⟩

/-- The unit-length invariant of the representation: real^2 + imag^2 = 1. -/
def IsUnit (z : SO2) : Prop := z.re * z.re + z.im * z.im = 1

/-- Euclidean length of the stored pair, as computed inside normalize():
sqrt(x*x + y*y). -/
def length (z : SO2) : ℝ := Real.sqrt (z.re * z.re + z.im * z.im)

/-- normalize(): divides both components by the Euclidean length.  The
contract check guarding it is normalizeAssert below. -/
def normalize (z : SO2) : SO2 := ⟨z.re / z.length, z.im / z.length⟩

/-- The assertion inside normalize(): assert(length > epsilon). -/
def normalizeAssert (z : SO2) : Prop := epsilon < z.length

/-- fastMultiply(other): complex multiplication written into the receiver,
without re-normalization. -/
def fastMultiply (a b : SO2) : SO2 :=
  ⟨a.re * b.re - a.im * b.im, a.re * b.im + a.im * b.re⟩

/-- operator*=(other): fastMultiply(other) followed by normalize(). -/
def mulAssign (a b : SO2) : SO2 := (a.fastMultiply b).normalize

/-- operator*(other): copies the receiver and applies operator*= to the
copy; the returned value is that copy. -/
def mul (a b : SO2) : SO2 := a.mulAssign b

/-- Constructor SO2Group(real, imag) (and likewise the 2-vector and
std::complex constructors, whose bodies are identical): stores the pair and
normalizes it.  The contract check guarding it is ctorPairAssert below. -/
def fromPair (r i : ℝ) : SO2 := normalize ⟨r, i⟩

/-- inverse(): returns SO2Group(real, -imag), the pair constructor applied
to the conjugate pair; that constructor asserts (ctorPairAssert of the
conjugate pair) and normalizes. -/
def inverse (a : SO2) : SO2 := fromPair a.re (-a.im)

/-- The assertion inside the pair constructor:
assert(real*real + imag*imag > epsilon). -/
def ctorPairAssert (r i : ℝ) : Prop := epsilon < r * r + i * i

/-- Group exponential exp(theta): constructs the element from the pair
(cos theta, sin theta) via the 2-vector constructor (which normalizes). -/
def exp (θ : ℝ) : SO2 := fromPair (Real.cos θ) (Real.sin θ)

/-- Group action on R^2, operator*(p): returns
(real*p[0] - imag*p[1], imag*p[0] + real*p[1]). -/
def act (a : SO2) (p : ℝ × ℝ) : ℝ × ℝ :=
  (a.re * p.1 - a.im * p.2, a.im * p.1 + a.re * p.2)

/-- Modelled: the C library function atan2(y, x) consumed from the
environment; mathematically it is the principal argument of the complex
number x + i y, with range (-pi, pi]. -/
def atan2 (y x : ℝ) : ℝ := Complex.arg ((x : ℂ) + (y : ℂ) * Complex.I)

/-- Logarithmic map log(other): atan2 of the imag and real parts. -/
def log (a : SO2) : ℝ := atan2 a.im a.re

end SO2

/-- A 2x2 matrix of scalars, entry mij at row i and column j.  Stands for
the Matrix Scalar 2 2 values exchanged with the environment. -/
@[ext]
structure Mat2 where
  m00 : ℝ
  m01 : ℝ
  m10 : ℝ
  m11 : ℝ

namespace Mat2

/-- Matrix product of two 2x2 matrices (environment capability). -/
def mulMat (A B : Mat2) : Mat2 :=
  ⟨A.m00 * B.m00 + A.m01 * B.m10, A.m00 * B.m01 + A.m01 * B.m11,
   A.m10 * B.m00 + A.m11 * B.m10, A.m10 * B.m01 + A.m11 * B.m11⟩

/-- Transpose of a 2x2 matrix (environment capability). -/
def transpose (A : Mat2) : Mat2 := ⟨A.m00, A.m10, A.m01, A.m11⟩

/-- Determinant of a 2x2 matrix (environment capability). -/
def det (A : Mat2) : ℝ := A.m00 * A.m11 - A.m01 * A.m10

/-- The 2x2 identity matrix. -/
def idMat : Mat2 := ⟨1, 0, 0, 1⟩

end Mat2

namespace SO2

/-- matrix(): the 2x2 rotation matrix [[real, -imag], [imag, real]]. -/
def matrix (a : SO2) : Mat2 := ⟨a.re, -a.im, a.im, a.re⟩

/-- hat(theta): the matrix [[0, -theta], [theta, 0]]. -/
def hat (θ : ℝ) : Mat2 := ⟨0, -θ, θ, 0⟩

/-- generator(): hat(1). -/
def generator : Mat2 := hat 1

/-- vee(Omega): returns Omega(1,0).  The contract check guarding it is
veeAssert below. -/
def vee (M : Mat2) : ℝ := M.m10

/-- The assertion inside vee():
assert(fabs(Omega(1,0) + Omega(0,1)) < epsilon). -/
def veeAssert (M : Mat2) : Prop := |M.m10 + M.m01| < epsilon

/-- Constructor SO2Group(R) from a 2x2 rotation matrix: stores the pair
(0.5*(R(0,0)+R(1,1)), 0.5*(R(1,0)-R(0,1))) with no normalization step. -/
def fromMatrix (R : Mat2) : SO2 :=
  ⟨(0.5 : ℝ) * (R.m00 + R.m11), (0.5 : ℝ) * (R.m10 - R.m01)⟩

/-- The precondition of the matrix constructor, stated in its
documentation but not checked at runtime: R is orthogonal with
determinant 1. -/
def RotMatPre (R : Mat2) : Prop := R.transpose.mulMat R = Mat2.idMat ∧ R.det = 1

/-!
State-passing embeddings of the read-only member functions.  A call on a
receiver is a function from the receiver state to the pair
(receiver state after the call, returned value); each body is translated
statement by statement, with writes going to the object the code writes.
-/

/-- operator*(other): the body declares a local copy result of the
receiver, applies operator*= to that copy, and returns the copy.  No
statement writes to the receiver. -/
def mulRun (self other : SO2) : SO2 × SO2 :=
  let result := self
  (self, result.mulAssign other)

/-- inverse(): constructs the returned element from reads of the receiver
via the normalizing pair constructor; no statement writes to the
receiver. -/
def inverseRun (self : SO2) : SO2 × SO2 := (self, fromPair self.re (-self.im))

/-- matrix() (also exposed as the matrix conversion): fills a fresh 2x2
matrix from reads of the receiver; no statement writes to the receiver. -/
def matrixRun (self : SO2) : SO2 × Mat2 :=
  (self, ⟨self.re, -self.im, self.im, self.re⟩)

/-- Instance method log(): delegates to the static logarithmic map on a
read of the receiver; no statement writes to the receiver. -/
def logRun (self : SO2) : SO2 × ℝ := (self, SO2.log self)

/-- cast() to a new scalar type: element-wise numeric cast of the pair,
handed to the normalizing 2-vector constructor; with both precisions
embedded as the reals the cast of each component is the component itself.
No statement writes to the receiver. -/
def castRun (self : SO2) : SO2 × SO2 := (self, fromPair self.re self.im)

end SO2

/-! Helper lemmas about the embedded operations. -/

theorem epsilon_pos : 0 < epsilon := by norm_num [epsilon]

theorem SO2.length_eq_one_of_isUnit {z : SO2} (h : z.IsUnit) : z.length = 1 := by
  unfold SO2.length
  rw [h, Real.sqrt_one]

theorem SO2.normalize_of_isUnit {z : SO2} (h : z.IsUnit) : z.normalize = z := by
  unfold SO2.normalize
  rw [SO2.length_eq_one_of_isUnit h, div_one, div_one]

theorem SO2.isUnit_normalize {z : SO2} (h : 0 < z.re * z.re + z.im * z.im) :
    z.normalize.IsUnit := by
  have hl : z.length * z.length = z.re * z.re + z.im * z.im :=
    Real.mul_self_sqrt h.le
  have hlpos : 0 < z.length := Real.sqrt_pos.mpr h
  unfold SO2.IsUnit SO2.normalize
  field_simp
  linarith [hl]

theorem SO2.isUnit_fastMultiply {a b : SO2} (ha : a.IsUnit) (hb : b.IsUnit) :
    (a.fastMultiply b).IsUnit := by
  have key : (a.re * b.re - a.im * b.im) * (a.re * b.re - a.im * b.im)
      + (a.re * b.im + a.im * b.re) * (a.re * b.im + a.im * b.re)
      = (a.re * a.re + a.im * a.im) * (b.re * b.re + b.im * b.im) := by ring
  unfold SO2.IsUnit SO2.fastMultiply at *
  dsimp only
  rw [key, ha, hb]
  norm_num

theorem SO2.isUnit_mk_cos_sin (θ : ℝ) : SO2.IsUnit ⟨Real.cos θ, Real.sin θ⟩ := by
  unfold SO2.IsUnit
  dsimp only
  have h := Real.sin_sq_add_cos_sq θ
  nlinarith [h]

theorem SO2.exp_eq (θ : ℝ) : SO2.exp θ = ⟨Real.cos θ, Real.sin θ⟩ := by
  unfold SO2.exp SO2.fromPair
  exact SO2.normalize_of_isUnit (SO2.isUnit_mk_cos_sin θ)

theorem SO2.isUnit_exp (θ : ℝ) : (SO2.exp θ).IsUnit := by
  rw [SO2.exp_eq]
  exact SO2.isUnit_mk_cos_sin θ

theorem SO2.isUnit_identity : SO2.identity.IsUnit := by
  unfold SO2.IsUnit SO2.identity
  norm_num

theorem SO2.isUnit_mulAssign {a b : SO2} (ha : a.IsUnit) (hb : b.IsUnit) :
    (a.mulAssign b).IsUnit := by
  unfold SO2.mulAssign
  rw [SO2.normalize_of_isUnit (SO2.isUnit_fastMultiply ha hb)]
  exact SO2.isUnit_fastMultiply ha hb

theorem SO2.mul_eq_fastMultiply {a b : SO2} (ha : a.IsUnit) (hb : b.IsUnit) :
    a.mul b = a.fastMultiply b := by
  unfold SO2.mul SO2.mulAssign
  exact SO2.normalize_of_isUnit (SO2.isUnit_fastMultiply ha hb)

theorem SO2.fastMultiply_comm (a b : SO2) :
    a.fastMultiply b = b.fastMultiply a := by
  unfold SO2.fastMultiply
  ext <;> dsimp only <;> ring

theorem SO2.veeAssert_hat (θ : ℝ) : SO2.veeAssert (SO2.hat θ) := by
  unfold SO2.veeAssert SO2.hat
  dsimp only
  rw [add_neg_cancel, abs_zero]
  exact epsilon_pos

theorem SO2.isUnit_mk_conj {a : SO2} (ha : a.IsUnit) :
    SO2.IsUnit ⟨a.re, -a.im⟩ := by
  unfold SO2.IsUnit at *
  dsimp only
  linear_combination ha

theorem SO2.inverse_eq_of_isUnit {a : SO2} (ha : a.IsUnit) :
    a.inverse = ⟨a.re, -a.im⟩ := by
  unfold SO2.inverse SO2.fromPair
  exact SO2.normalize_of_isUnit (SO2.isUnit_mk_conj ha)

theorem SO2.isUnit_inverse {a : SO2} (ha : a.IsUnit) : a.inverse.IsUnit := by
  rw [SO2.inverse_eq_of_isUnit ha]
  exact SO2.isUnit_mk_conj ha

/-! Claim theorems. -/

/-- C1: every SO2 value observable by other operations satisfies
real^2 + imag^2 = 1: the default constructor and exp establish it, the
normalizing pair constructor establishes it whenever its contract check
passes, and operator*= preserves it by normalizing right after the
complex multiplication performed by fastMultiply. -/
theorem C1_unit_invariant :
    SO2.identity.IsUnit
    ∧ (∀ θ : ℝ, (SO2.exp θ).IsUnit)
    ∧ (∀ r i : ℝ, SO2.ctorPairAssert r i → (SO2.fromPair r i).IsUnit)
    ∧ (∀ a b : SO2, a.IsUnit → b.IsUnit → (a.mulAssign b).IsUnit)
    ∧ (∀ a b : SO2, a.mulAssign b = (a.fastMultiply b).normalize) := by
  refine ⟨SO2.isUnit_identity, SO2.isUnit_exp, ?_,
    fun a b ha hb => SO2.isUnit_mulAssign ha hb, fun a b => rfl⟩
  intro r i h
  unfold SO2.ctorPairAssert at h
  have hpos : 0 < r * r + i * i := lt_of_le_of_lt epsilon_pos.le h
  show (SO2.normalize ⟨r, i⟩).IsUnit
  exact SO2.isUnit_normalize hpos

/-- Witness for C1 at the pair (3, 4) and at a pair of identities. -/
theorem C1_unit_invariant_witness :
    SO2.ctorPairAssert 3 4 ∧ (SO2.fromPair 3 4).IsUnit
    ∧ (SO2.identity.mulAssign SO2.identity).IsUnit := by
  have h : SO2.ctorPairAssert 3 4 := by norm_num [SO2.ctorPairAssert, epsilon]
  exact ⟨h, C1_unit_invariant.2.2.1 3 4 h,
    C1_unit_invariant.2.2.2.1 _ _ SO2.isUnit_identity SO2.isUnit_identity⟩

/-- C2: exp(theta) is the rotation with pair (cos theta, sin theta); it is
total, its implicit constructor contract check always passes, its result
is unit-length, and exp(0) is the identity pair (1, 0) produced by the
zero-argument constructor. -/
theorem C2_exp_cos_sin :
    (∀ θ : ℝ, SO2.exp θ = ⟨Real.cos θ, Real.sin θ⟩)
    ∧ (∀ θ : ℝ, SO2.ctorPairAssert (Real.cos θ) (Real.sin θ))
    ∧ (∀ θ : ℝ, (SO2.exp θ).IsUnit)
    ∧ SO2.exp 0 = SO2.identity
    ∧ SO2.identity = ⟨1, 0⟩ := by
  refine ⟨SO2.exp_eq, ?_, SO2.isUnit_exp, ?_, rfl⟩
  · intro θ
    unfold SO2.ctorPairAssert
    have h := Real.sin_sq_add_cos_sq θ
    have he : epsilon < 1 := by norm_num [epsilon]
    nlinarith [h, he]
  · rw [SO2.exp_eq]
    unfold SO2.identity
    ext <;> simp

/-- C3: the logarithmic map is atan2(imag, real), its range is
(-pi, pi], log inverts exp on (-pi, pi], and exp inverts log on every
unit-length rotation. -/
theorem C3_log_inverse_of_exp :
    (∀ a : SO2, SO2.log a = SO2.atan2 a.im a.re)
    ∧ (∀ a : SO2, SO2.log a ∈ Set.Ioc (-Real.pi) Real.pi)
    ∧ (∀ θ : ℝ, θ ∈ Set.Ioc (-Real.pi) Real.pi → SO2.log (SO2.exp θ) = θ)
    ∧ (∀ a : SO2, a.IsUnit → SO2.exp (SO2.log a) = a) := by
  refine ⟨fun a => rfl, fun a => Complex.arg_mem_Ioc _, ?_, ?_⟩
  · intro θ hθ
    rw [SO2.exp_eq]
    unfold SO2.log SO2.atan2
    dsimp only
    rw [Complex.ofReal_cos, Complex.ofReal_sin]
    exact Complex.arg_cos_add_sin_mul_I hθ
  · intro a ha
    unfold SO2.log SO2.atan2
    set w : ℂ := (a.re : ℂ) + (a.im : ℂ) * Complex.I with hw
    have hns : Complex.normSq w = 1 := by
      rw [hw, Complex.normSq_add_mul_I]
      have h2 : a.re ^ 2 + a.im ^ 2 = a.re * a.re + a.im * a.im := by ring
      rw [h2]
      exact ha
    have habs : Complex.abs w = 1 := by
      rw [Complex.abs_apply, hns, Real.sqrt_one]
    have hw0 : w ≠ 0 := by
      intro h0
      rw [h0] at habs
      simp at habs
    have hcos : Real.cos (Complex.arg w) = a.re := by
      rw [Complex.cos_arg hw0, habs, div_one, hw]
      simp
    have hsin : Real.sin (Complex.arg w) = a.im := by
      rw [Complex.sin_arg, habs, div_one, hw]
      simp
    rw [SO2.exp_eq]
    ext
    · exact hcos
    · exact hsin

/-- Witness for C3 at theta = 0 and at the identity rotation. -/
theorem C3_log_inverse_of_exp_witness :
    (0 : ℝ) ∈ Set.Ioc (-Real.pi) Real.pi
    ∧ SO2.log (SO2.exp 0) = 0
    ∧ SO2.identity.IsUnit
    ∧ SO2.exp (SO2.log SO2.identity) = SO2.identity := by
  have hmem : (0 : ℝ) ∈ Set.Ioc (-Real.pi) Real.pi :=
    Set.mem_Ioc.mpr ⟨neg_lt_zero.mpr Real.pi_pos, Real.pi_pos.le⟩
  exact ⟨hmem, C3_log_inverse_of_exp.2.2.1 0 hmem, SO2.isUnit_identity,
    C3_log_inverse_of_exp.2.2.2 _ SO2.isUnit_identity⟩

/-- C4: inverse() builds its result from the conjugate pair (real, -imag)
through the normalizing pair constructor; on every unit-length rotation
the constructor contract check passes (no failure mode) and the result is
exactly the conjugate pair, composing a rotation with its inverse yields
the identity, and inverse is an involution on rotations. -/
theorem C4_inverse_conjugate :
    (∀ a : SO2, a.inverse = SO2.fromPair a.re (-a.im))
    ∧ (∀ a : SO2, a.IsUnit → SO2.ctorPairAssert a.re (-a.im))
    ∧ (∀ a : SO2, a.IsUnit → a.inverse = ⟨a.re, -a.im⟩)
    ∧ (∀ a : SO2, a.IsUnit → a.mul a.inverse = SO2.identity)
    ∧ (∀ a : SO2, a.IsUnit → a.inverse.inverse = a) := by
  refine ⟨fun a => rfl, ?_, fun a ha => SO2.inverse_eq_of_isUnit ha, ?_, ?_⟩
  · intro a ha
    have ha' : a.re * a.re + a.im * a.im = 1 := ha
    unfold SO2.ctorPairAssert
    have he : epsilon < 1 := by norm_num [epsilon]
    have h2 : a.re * a.re + -a.im * -a.im = 1 := by linear_combination ha'
    linarith [h2, he]
  · intro a ha
    have ha' : a.re * a.re + a.im * a.im = 1 := ha
    rw [SO2.inverse_eq_of_isUnit ha]
    have hf : a.fastMultiply ⟨a.re, -a.im⟩ = SO2.identity := by
      unfold SO2.fastMultiply SO2.identity
      ext <;> dsimp only
      · linear_combination ha'
      · ring
    rw [SO2.mul_eq_fastMultiply ha (SO2.isUnit_mk_conj ha), hf]
  · intro a ha
    rw [SO2.inverse_eq_of_isUnit ha,
      SO2.inverse_eq_of_isUnit (SO2.isUnit_mk_conj ha)]
    ext <;> simp

/-- Witness for C4 at the identity rotation. -/
theorem C4_inverse_conjugate_witness :
    SO2.identity.IsUnit
    ∧ SO2.ctorPairAssert SO2.identity.re (-SO2.identity.im)
    ∧ SO2.identity.inverse = ⟨SO2.identity.re, -SO2.identity.im⟩
    ∧ SO2.identity.mul SO2.identity.inverse = SO2.identity
    ∧ SO2.identity.inverse.inverse = SO2.identity :=
  ⟨SO2.isUnit_identity,
   C4_inverse_conjugate.2.1 _ SO2.isUnit_identity,
   C4_inverse_conjugate.2.2.1 _ SO2.isUnit_identity,
   C4_inverse_conjugate.2.2.2.1 _ SO2.isUnit_identity,
   C4_inverse_conjugate.2.2.2.2 _ SO2.isUnit_identity⟩

/-- C5: group multiplication is associative on unit-length rotations and
commutative on all stored pairs. -/
theorem C5_mul_assoc_comm :
    (∀ a b c : SO2, a.IsUnit → b.IsUnit → c.IsUnit →
      (a.mul b).mul c = a.mul (b.mul c))
    ∧ (∀ a b : SO2, a.mul b = b.mul a) := by
  constructor
  · intro a b c ha hb hc
    have hab := SO2.isUnit_fastMultiply ha hb
    have hbc := SO2.isUnit_fastMultiply hb hc
    rw [SO2.mul_eq_fastMultiply ha hb, SO2.mul_eq_fastMultiply hb hc,
      SO2.mul_eq_fastMultiply hab hc, SO2.mul_eq_fastMultiply ha hbc]
    unfold SO2.fastMultiply
    ext <;> dsimp only <;> ring
  · intro a b
    unfold SO2.mul SO2.mulAssign
    rw [SO2.fastMultiply_comm]

/-- Witness for C5 at a triple of identity rotations. -/
theorem C5_mul_assoc_comm_witness :
    SO2.identity.IsUnit
    ∧ (SO2.identity.mul SO2.identity).mul SO2.identity
      = SO2.identity.mul (SO2.identity.mul SO2.identity) :=
  ⟨SO2.isUnit_identity, C5_mul_assoc_comm.1 _ _ _ SO2.isUnit_identity
    SO2.isUnit_identity SO2.isUnit_identity⟩

/-- C6: the action on a 2D point computes
(real*x - imag*y, imag*x + real*y) and round-trips with the inverse
action on unit-length rotations. -/
theorem C6_act_round_trip :
    (∀ (a : SO2) (p : ℝ × ℝ),
      a.act p = (a.re * p.1 - a.im * p.2, a.im * p.1 + a.re * p.2))
    ∧ (∀ (a : SO2) (p : ℝ × ℝ), a.IsUnit → a.act (a.inverse.act p) = p) := by
  refine ⟨fun a p => rfl, ?_⟩
  intro a p ha
  have ha' : a.re * a.re + a.im * a.im = 1 := ha
  rw [SO2.inverse_eq_of_isUnit ha]
  unfold SO2.act
  dsimp only
  ext
  · dsimp only
    linear_combination p.1 * ha'
  · dsimp only
    linear_combination p.2 * ha'

/-- Witness for C6 at the identity rotation and the point (3, 4). -/
theorem C6_act_round_trip_witness :
    SO2.identity.IsUnit
    ∧ SO2.identity.act (SO2.identity.inverse.act (3, 4)) = (3, 4) :=
  ⟨SO2.isUnit_identity, C6_act_round_trip.2 SO2.identity (3, 4) SO2.isUnit_identity⟩

/-- C7: hat(theta) is the matrix [[0, -theta], [theta, 0]], vee is its
exact left inverse, hat inverts vee on matrices with zero diagonal and
M(0,1) = -M(1,0), and the vee contract check passes on every output of
hat and on the generator. -/
theorem C7_hat_vee :
    (∀ θ : ℝ, SO2.hat θ = ⟨0, -θ, θ, 0⟩)
    ∧ (∀ θ : ℝ, SO2.vee (SO2.hat θ) = θ)
    ∧ (∀ M : Mat2, M.m00 = 0 → M.m11 = 0 → M.m01 = -M.m10 →
        SO2.hat (SO2.vee M) = M)
    ∧ (∀ θ : ℝ, SO2.veeAssert (SO2.hat θ))
    ∧ SO2.veeAssert SO2.generator := by
  refine ⟨fun θ => rfl, fun θ => rfl, ?_, SO2.veeAssert_hat, SO2.veeAssert_hat 1⟩
  intro M h00 h11 h01
  unfold SO2.hat SO2.vee
  ext <;> simp [h00, h01, h11]

/-- Witness for C7 at the matrix hat(2). -/
theorem C7_hat_vee_witness :
    (SO2.hat 2).m00 = 0 ∧ (SO2.hat 2).m11 = 0
    ∧ (SO2.hat 2).m01 = -(SO2.hat 2).m10
    ∧ SO2.hat (SO2.vee (SO2.hat 2)) = SO2.hat 2 :=
  ⟨rfl, rfl, rfl, C7_hat_vee.2.2.1 (SO2.hat 2) rfl rfl rfl⟩

/-- C8: normalize divides the pair by its Euclidean norm and its contract
check fails exactly when the norm is at or below epsilon; the pair
constructor contract check fails on the zero pair and on every pair of
squared norm at or below epsilon. -/
theorem C8_normalize_guard :
    (∀ z : SO2, z.normalize = ⟨z.re / z.length, z.im / z.length⟩)
    ∧ (∀ z : SO2, ¬ z.normalizeAssert ↔ z.length ≤ epsilon)
    ∧ ¬ SO2.ctorPairAssert 0 0
    ∧ (∀ r i : ℝ, r * r + i * i ≤ epsilon → ¬ SO2.ctorPairAssert r i) := by
  refine ⟨fun z => rfl, fun z => not_lt, ?_, fun r i h => not_lt.mpr h⟩
  unfold SO2.ctorPairAssert
  norm_num [epsilon]

/-- Witness for C8 at the zero pair. -/
theorem C8_normalize_guard_witness :
    ((0 : ℝ) * 0 + 0 * 0 ≤ epsilon) ∧ ¬ SO2.ctorPairAssert 0 0 := by
  have h : (0 : ℝ) * 0 + 0 * 0 ≤ epsilon := by norm_num [epsilon]
  exact ⟨h, C8_normalize_guard.2.2.2 0 0 h⟩

/-- C9: the matrix constructor stores the pair
(0.5*(R00 + R11), 0.5*(R10 - R01)) with no normalization step, and under
the documented precondition (R orthogonal with determinant 1) the stored
pair is unit-length. -/
theorem C9_from_matrix :
    (∀ R : Mat2, SO2.fromMatrix R =
      ⟨(0.5 : ℝ) * (R.m00 + R.m11), (0.5 : ℝ) * (R.m10 - R.m01)⟩)
    ∧ (∀ R : Mat2, SO2.RotMatPre R → (SO2.fromMatrix R).IsUnit) := by
  refine ⟨fun R => rfl, ?_⟩
  rintro R ⟨horth, hdet⟩
  have e00 := congrArg Mat2.m00 horth
  have e11 := congrArg Mat2.m11 horth
  unfold Mat2.transpose Mat2.mulMat Mat2.idMat at e00 e11
  dsimp only at e00 e11
  unfold Mat2.det at hdet
  unfold SO2.IsUnit SO2.fromMatrix
  dsimp only
  linear_combination (1 / 4 : ℝ) * e00 + (1 / 4 : ℝ) * e11 + (1 / 2 : ℝ) * hdet

/-- Witness for C9 at the identity matrix. -/
theorem C9_from_matrix_witness :
    SO2.RotMatPre Mat2.idMat ∧ (SO2.fromMatrix Mat2.idMat).IsUnit := by
  have hpre : SO2.RotMatPre Mat2.idMat := by
    constructor
    · ext <;> norm_num [Mat2.transpose, Mat2.mulMat, Mat2.idMat]
    · norm_num [Mat2.det, Mat2.idMat]
  exact ⟨hpre, C9_from_matrix.2 Mat2.idMat hpre⟩

/-- C10: the read-only member functions leave the receiver state
unchanged: operator* writes only to its local copy and returns
operator*= of that copy, and inverse, matrix, log and cast return values
built purely from reads of the receiver; on a unit-length receiver cast
returns the receiver pair unchanged. -/
theorem C10_readonly_frame :
    (∀ a b : SO2, (a.mulRun b).1 = a ∧ (a.mulRun b).2 = a.mulAssign b)
    ∧ (∀ a : SO2, a.inverseRun.1 = a ∧ a.inverseRun.2 = a.inverse)
    ∧ (∀ a : SO2, a.matrixRun.1 = a ∧ a.matrixRun.2 = a.matrix)
    ∧ (∀ a : SO2, a.logRun.1 = a ∧ a.logRun.2 = SO2.log a)
    ∧ (∀ a : SO2, a.castRun.1 = a
        ∧ a.castRun.2 = SO2.fromPair a.re a.im
        ∧ (a.IsUnit → a.castRun.2 = a)) := by
  refine ⟨fun a b => ⟨rfl, rfl⟩, fun a => ⟨rfl, rfl⟩, fun a => ⟨rfl, rfl⟩,
    fun a => ⟨rfl, rfl⟩, fun a => ⟨rfl, rfl, fun ha => ?_⟩⟩
  show SO2.fromPair a.re a.im = a
  unfold SO2.fromPair
  exact SO2.normalize_of_isUnit ha

/-- Witness for C10 at the identity rotation. -/
theorem C10_readonly_frame_witness :
    SO2.identity.IsUnit ∧ SO2.identity.castRun.2 = SO2.identity :=
  ⟨SO2.isUnit_identity,
   (C10_readonly_frame.2.2.2.2 SO2.identity).2.2 SO2.isUnit_identity⟩

end Sophus

end
